import Mathlib

/-!
Verification development for the MCModeler diagram core.

The `Diagram` class (declared in `src/diagram.h`) owns the block state of a
voxel diagram: a primary index from positions to block instances, a per-level
index partitioning the primary index by y-coordinate, and an ephemeral
overlay.  All mutation goes through `commit` applied to a transaction of
insertion/removal edits.  The implementation file `diagram.cc` is not part of
the source tree available here, so the Diagram operations are modelled from
the specification; `BlockPrototype::defaultOrientation` and
`BlockPrototype::nameOfType` are translated directly from
`src/block_prototype.cc`.
-/

namespace MCModeler

/-- A grid cell identified by three signed integer coordinates.  Mirrors
`BlockPosition`; `y` is the vertical level. -/
structure BlockPosition where
  x : Int
  y : Int
  z : Int
deriving DecidableEq, Repr

/-- Orientations are interned singletons looked up by name; we model one by
its name.  Mirrors `BlockOrientation`. -/
abbrev BlockOrientation := String

/-- The interned "no orientation" sentinel, `BlockOrientation::noOrientation()`. -/
def BlockOrientation.noOrientation : BlockOrientation := "None"

/-- The designated air block type `kBlockTypeAir`, denoting absence. -/
def kBlockTypeAir : Int := 0

/-- A typed, positioned, oriented block.  Mirrors `BlockInstance`
(type identifier, position, orientation). -/
structure BlockInstance where
  blockType : Int
  position : BlockPosition
  orientation : BlockOrientation
deriving DecidableEq, Repr

/-- The synthesized instance returned for empty cells: air type, the queried
position, no orientation. -/
def airInstance (p : BlockPosition) : BlockInstance :=
  ⟨kBlockTypeAir, p, BlockOrientation.noOrientation⟩

/-- A position-keyed map of block instances, modelling
`QHash<BlockPosition, BlockInstance>` as an association list. -/
abbrev PosMap := List (BlockPosition × BlockInstance)

/-- Lookup in a position map: the first entry whose key matches. -/
def findAt : PosMap → BlockPosition → Option BlockInstance
  | [], _ => none
  | (q, b) :: rest, p => if q = p then some b else findAt rest p

/-- Remove every entry keyed by `p` (`QHash::remove`). -/
def eraseAt : PosMap → BlockPosition → PosMap
  | [], _ => []
  | (q, b) :: rest, p => if q = p then eraseAt rest p else (q, b) :: eraseAt rest p

/-- Insert `b` at key `p`, replacing any existing entry (`QHash::insert`). -/
def insertAt (m : PosMap) (p : BlockPosition) (b : BlockInstance) : PosMap :=
  (p, b) :: eraseAt m p

@[simp]
theorem findAt_nil (p : BlockPosition) : findAt [] p = none := rfl

@[simp]
theorem findAt_cons (q : BlockPosition) (b : BlockInstance) (rest : PosMap)
    (p : BlockPosition) :
    findAt ((q, b) :: rest) p = if q = p then some b else findAt rest p := rfl

theorem findAt_eraseAt_self (m : PosMap) (p : BlockPosition) :
    findAt (eraseAt m p) p = none := by
  induction m with
  | nil => rfl
  | cons kv rest ih =>
    obtain ⟨q, b⟩ := kv
    by_cases h : q = p
    · simp [eraseAt, h, ih]
    · simp [eraseAt, h, ih]

theorem findAt_eraseAt_ne (m : PosMap) (p q : BlockPosition) (h : p ≠ q) :
    findAt (eraseAt m p) q = findAt m q := by
  induction m with
  | nil => rfl
  | cons kv rest ih =>
    obtain ⟨r, b⟩ := kv
    by_cases hr : r = p
    · subst hr
      simp [eraseAt, h, ih]
    · simp [eraseAt, hr, ih]

@[simp]
theorem findAt_insertAt_self (m : PosMap) (p : BlockPosition) (b : BlockInstance) :
    findAt (insertAt m p b) p = some b := by
  simp [insertAt]

theorem findAt_insertAt_ne (m : PosMap) (p q : BlockPosition) (b : BlockInstance)
    (h : p ≠ q) : findAt (insertAt m p b) q = findAt m q := by
  simp [insertAt, h]
  exact findAt_eraseAt_ne m p q h

theorem eraseAt_of_absent (m : PosMap) (p : BlockPosition)
    (h : findAt m p = none) : eraseAt m p = m := by
  induction m with
  | nil => rfl
  | cons kv rest ih =>
    obtain ⟨q, b⟩ := kv
    by_cases hq : q = p
    · simp [hq] at h
    · simp [findAt, hq] at h
      simp [eraseAt, hq, ih h]

theorem mem_of_findAt (m : PosMap) (p : BlockPosition) (b : BlockInstance)
    (h : findAt m p = some b) : (p, b) ∈ m := by
  induction m with
  | nil => simp [findAt] at h
  | cons kv rest ih =>
    obtain ⟨q, c⟩ := kv
    by_cases hq : q = p
    · subst hq
      simp [findAt] at h
      subst h
      exact List.mem_cons_self _ _
    · simp [findAt, hq] at h
      exact List.mem_cons_of_mem _ (ih h)

theorem findAt_eq_none_of_not_mem_keys (m : PosMap) (p : BlockPosition)
    (h : p ∉ m.map Prod.fst) : findAt m p = none := by
  induction m with
  | nil => rfl
  | cons kv rest ih =>
    obtain ⟨q, c⟩ := kv
    rw [List.map_cons, List.mem_cons] at h
    push_neg at h
    simp [findAt, Ne.symm h.1, ih h.2]

/-- Modelled from the spec: the Diagram Store's state — the primary index
`block_map_`, the per-level index `block_list_` (level y ↦ map of blocks at
that level), and the ephemeral overlay `ephemeral_blocks_`
(`src/diagram.h:199-213`; `diagram.cc` is not in the tree). -/
structure Diagram where
  block_map : PosMap
  block_list : Int → PosMap
  ephemeral_blocks : PosMap

/-- Modelled from the spec: a single edit of a transaction — an insertion of a
block instance (keyed by the instance's own position) or a removal of the
block at a position. -/
inductive Edit where
  | ins (b : BlockInstance)
  | del (p : BlockPosition)
deriving DecidableEq, Repr

/-- Modelled from the spec: a `BlockTransaction` is an ordered collection of
edits. -/
abbrev Transaction := List Edit

/-- The position an edit targets. -/
def targetOf : Edit → BlockPosition
  | .ins b => b.position
  | .del p => p

/-- A fresh, empty Diagram Store. -/
def emptyDiagram : Diagram :=
  { block_map := [], block_list := fun _ => [], ephemeral_blocks := [] }

/-- Modelled from the spec: `Diagram::addBlockInternal` — directly add a block
to both indices, replacing whatever was there; the level index entry for the
block's y-coordinate is updated (`src/diagram.h:164-169`). -/
def addBlockInternal (d : Diagram) (b : BlockInstance) : Diagram :=
  { d with
    block_map := insertAt d.block_map b.position b,
    block_list := fun lvl =>
      if lvl = b.position.y then insertAt (d.block_list lvl) b.position b
      else d.block_list lvl }

/-- Modelled from the spec: `Diagram::removeBlockInternal` — directly remove
the block at `p` from both indices (`src/diagram.h:173-177`). -/
def removeBlockInternal (d : Diagram) (p : BlockPosition) : Diagram :=
  { d with
    block_map := eraseAt d.block_map p,
    block_list := fun lvl =>
      if lvl = p.y then eraseAt (d.block_list lvl) p
      else d.block_list lvl }

/-- Apply one edit to the store. -/
def applyEdit (d : Diagram) : Edit → Diagram
  | .ins b => addBlockInternal d b
  | .del p => removeBlockInternal d p

/-- Modelled from the spec: `Diagram::commit` applies every edit of the
transaction to the primary and level indices (`src/diagram.h:123-127`). -/
def commit (d : Diagram) (t : Transaction) : Diagram :=
  t.foldl applyEdit d

/-- Modelled from the spec: `Diagram::commitEphemeral` applies the transaction
against the ephemeral overlay only (`src/diagram.h:129`). -/
def commitEphemeral (d : Diagram) (t : Transaction) : Diagram :=
  { d with
    ephemeral_blocks := t.foldl
      (fun m e =>
        match e with
        | .ins b => insertAt m b.position b
        | .del p => eraseAt m p) d.ephemeral_blocks }

/-- Modelled from the spec: `Diagram::blockAt` — the stored instance, or a
synthesized air instance at the queried position (`src/diagram.h:63-68`). -/
def blockAt (d : Diagram) (p : BlockPosition) : BlockInstance :=
  match findAt d.block_map p with
  | some b => b
  | none => airInstance p

/-- Modelled from the spec: `Diagram::level` — all blocks on one level, from
the level index (`src/diagram.h:141-145`). -/
def Diagram.level (d : Diagram) (level_index : Int) : PosMap :=
  d.block_list level_index

/-- The store reached from an empty diagram by a sequence of commits. -/
def commits (ts : List Transaction) : Diagram :=
  ts.foldl commit emptyDiagram

@[simp]
theorem commit_nil (d : Diagram) : commit d [] = d := rfl

@[simp]
theorem commit_cons (d : Diagram) (e : Edit) (t : Transaction) :
    commit d (e :: t) = commit (applyEdit d e) t := rfl

theorem applyEdit_findAt_ne (d : Diagram) (e : Edit) (q : BlockPosition)
    (h : targetOf e ≠ q) :
    findAt (applyEdit d e).block_map q = findAt d.block_map q := by
  cases e with
  | ins b =>
    simp [applyEdit, addBlockInternal]
    exact findAt_insertAt_ne _ _ _ _ h
  | del p =>
    simp [applyEdit, removeBlockInternal]
    exact findAt_eraseAt_ne _ _ _ h

theorem commit_findAt_not_target (d : Diagram) (t : Transaction) (q : BlockPosition)
    (h : q ∉ t.map targetOf) :
    findAt (commit d t).block_map q = findAt d.block_map q := by
  induction t generalizing d with
  | nil => rfl
  | cons e rest ih =>
    rw [List.map_cons, List.mem_cons] at h
    push_neg at h
    rw [commit_cons, ih _ h.2, applyEdit_findAt_ne _ _ _ (Ne.symm h.1)]

theorem commit_findAt_ins (d : Diagram) (t : Transaction) (b : BlockInstance)
    (hnd : (t.map targetOf).Nodup) (hmem : Edit.ins b ∈ t) :
    findAt (commit d t).block_map b.position = some b := by
  induction t generalizing d with
  | nil => simp at hmem
  | cons e rest ih =>
    rw [List.map_cons, List.nodup_cons] at hnd
    rcases List.mem_cons.mp hmem with he | he
    · subst he
      rw [commit_cons]
      have : b.position ∉ rest.map targetOf := by
        simpa [targetOf] using hnd.1
      rw [commit_findAt_not_target _ _ _ this]
      simp [applyEdit, addBlockInternal]
    · exact ih _ hnd.2 he

theorem commit_findAt_del (d : Diagram) (t : Transaction) (p : BlockPosition)
    (hnd : (t.map targetOf).Nodup) (hmem : Edit.del p ∈ t) :
    findAt (commit d t).block_map p = none := by
  induction t generalizing d with
  | nil => simp at hmem
  | cons e rest ih =>
    rw [List.map_cons, List.nodup_cons] at hnd
    rcases List.mem_cons.mp hmem with he | he
    · subst he
      rw [commit_cons]
      have : p ∉ rest.map targetOf := by
        simpa [targetOf] using hnd.1
      rw [commit_findAt_not_target _ _ _ this]
      simp [applyEdit, removeBlockInternal]
      exact findAt_eraseAt_self _ _
    · exact ih _ hnd.2 he

theorem removeBlockInternal_absent (d : Diagram) (p : BlockPosition)
    (h1 : findAt d.block_map p = none) (h2 : findAt (d.block_list p.y) p = none) :
    removeBlockInternal d p = d := by
  obtain ⟨m, ls, e⟩ := d
  simp only [removeBlockInternal, Diagram.mk.injEq]
  refine ⟨eraseAt_of_absent _ _ h1, funext fun lvl => ?_, trivial⟩
  by_cases hl : lvl = p.y
  · subst hl
    rw [if_pos rfl, eraseAt_of_absent _ _ h2]
  · rw [if_neg hl]

/-- Every entry of the primary index stores an instance whose own position is
its key.  Holds for every reachable store; stated over the entry list so it is
decidable on concrete stores. -/
def storedPositionsOk (d : Diagram) : Prop :=
  ∀ kv ∈ d.block_map, kv.2.position = kv.1

instance (d : Diagram) : Decidable (storedPositionsOk d) :=
  List.decidableBAll _ _

/-- Claim C1: immediately after `commit(T)`, every insertion edit (pos, inst)
of T reads back via `blockAt` as exactly inst, every removal edit position
reads back as air-typed; a removal whose target is absent from both indices is
a no-op, and an insertion overwrites the entry at its position in both the
primary and the level index. -/
theorem c1_commit_effects (d : Diagram) (t : Transaction)
    (hnd : (t.map targetOf).Nodup) :
    (∀ b : BlockInstance, Edit.ins b ∈ t → blockAt (commit d t) b.position = b) ∧
    (∀ p : BlockPosition, Edit.del p ∈ t →
      (blockAt (commit d t) p).blockType = kBlockTypeAir) ∧
    (∀ p : BlockPosition, findAt d.block_map p = none →
      findAt (d.block_list p.y) p = none → commit d [Edit.del p] = d) ∧
    (∀ b : BlockInstance,
      findAt (commit d [Edit.ins b]).block_map b.position = some b ∧
      findAt ((commit d [Edit.ins b]).block_list b.position.y) b.position = some b) := by
  refine ⟨fun b hb => ?_, fun p hp => ?_, fun p h1 h2 => ?_, fun b => ?_⟩
  · rw [blockAt, commit_findAt_ins d t b hnd hb]
  · rw [blockAt, commit_findAt_del d t p hnd hp]
    rfl
  · show applyEdit d (Edit.del p) = d
    exact removeBlockInternal_absent d p h1 h2
  · constructor
    · show findAt (applyEdit d (Edit.ins b)).block_map b.position = some b
      simp [applyEdit, addBlockInternal]
    · show findAt ((applyEdit d (Edit.ins b)).block_list b.position.y) b.position = some b
      simp [applyEdit, addBlockInternal]

theorem c1_commit_effects_witness :
    blockAt (commit emptyDiagram
        [Edit.ins ⟨7, ⟨1, 2, 3⟩, "North"⟩, Edit.del ⟨4, 5, 6⟩]) ⟨1, 2, 3⟩ =
      ⟨7, ⟨1, 2, 3⟩, "North"⟩ ∧
    (blockAt (commit emptyDiagram
        [Edit.ins ⟨7, ⟨1, 2, 3⟩, "North"⟩, Edit.del ⟨4, 5, 6⟩]) ⟨4, 5, 6⟩).blockType =
      kBlockTypeAir := by
  refine ⟨(c1_commit_effects emptyDiagram _ (by decide)).1 ⟨7, ⟨1, 2, 3⟩, "North"⟩ ?_,
          (c1_commit_effects emptyDiagram _ (by decide)).2.1 ⟨4, 5, 6⟩ ?_⟩
  · exact List.mem_cons_self _ _
  · exact List.mem_cons_of_mem _ (List.mem_cons_self _ _)

/-- Claim C3: `blockAt` is total: if the queried position has an entry in the
primary index it returns that stored instance, otherwise it returns the
synthesized air instance; in both cases the returned instance's position
equals the queried position. -/
theorem c3_blockAt_total (d : Diagram) (P : BlockPosition)
    (h : storedPositionsOk d) :
    (∀ b : BlockInstance, findAt d.block_map P = some b → blockAt d P = b) ∧
    (findAt d.block_map P = none → blockAt d P = airInstance P) ∧
    (blockAt d P).position = P := by
  refine ⟨fun b hb => ?_, fun hn => ?_, ?_⟩
  · rw [blockAt, hb]
  · rw [blockAt, hn]
  · rw [blockAt]
    cases hf : findAt d.block_map P with
    | none => rfl
    | some b =>
      exact h (P, b) (mem_of_findAt _ _ _ hf)

theorem c3_blockAt_total_witness :
    blockAt (commit emptyDiagram [Edit.ins ⟨7, ⟨1, 2, 3⟩, "North"⟩]) ⟨9, 9, 9⟩ =
      airInstance ⟨9, 9, 9⟩ ∧
    (blockAt (commit emptyDiagram [Edit.ins ⟨7, ⟨1, 2, 3⟩, "North"⟩]) ⟨1, 2, 3⟩).position =
      ⟨1, 2, 3⟩ := by
  refine ⟨(c3_blockAt_total (commit emptyDiagram [Edit.ins ⟨7, ⟨1, 2, 3⟩, "North"⟩])
            ⟨9, 9, 9⟩ (by decide)).2.1 (by decide),
          (c3_blockAt_total (commit emptyDiagram [Edit.ins ⟨7, ⟨1, 2, 3⟩, "North"⟩])
            ⟨1, 2, 3⟩ (by decide)).2.2⟩

/-- Every primary-index entry stores an instance positioned at its key. -/
def storedOk (d : Diagram) : Prop :=
  ∀ p b, findAt d.block_map p = some b → b.position = p

/-- Every level-index entry stores an instance positioned at its key, and the
key's y-coordinate is the level it is filed under. -/
def levelOk (d : Diagram) : Prop :=
  ∀ lvl p b, findAt (d.block_list lvl) p = some b → b.position = p ∧ p.y = lvl

/-- The primary and level indices hold the same entries: each primary entry
appears in the level map of its instance's y-coordinate at the same key, and
each level-map entry appears in the primary index at the same key. -/
def indicesConsistent (d : Diagram) : Prop :=
  (∀ p b, findAt d.block_map p = some b →
    findAt (d.block_list b.position.y) p = some b) ∧
  (∀ lvl p b, findAt (d.block_list lvl) p = some b →
    findAt d.block_map p = some b)

/-- The full store invariant maintained by the commit protocol. -/
def diagramInv (d : Diagram) : Prop :=
  storedOk d ∧ levelOk d ∧ indicesConsistent d

theorem diagramInv_empty : diagramInv emptyDiagram := by
  refine ⟨fun p b h => ?_, fun lvl p b h => ?_, fun p b h => ?_, fun lvl p b h => ?_⟩ <;>
    simp [emptyDiagram, findAt] at h

theorem diagramInv_addBlockInternal (d : Diagram) (b : BlockInstance)
    (h : diagramInv d) : diagramInv (addBlockInternal d b) := by
  obtain ⟨hs, hl, hfwd, hbwd⟩ := h
  refine ⟨?_, ?_, ?_, ?_⟩
  · intro p c hf
    simp only [addBlockInternal] at hf
    by_cases hp : b.position = p
    · subst hp
      rw [findAt_insertAt_self] at hf
      simp at hf
      subst hf
      rfl
    · rw [findAt_insertAt_ne _ _ _ _ hp] at hf
      exact hs p c hf
  · intro lvl p c hf
    simp only [addBlockInternal] at hf
    by_cases hlvl : lvl = b.position.y
    · rw [if_pos hlvl] at hf
      by_cases hp : b.position = p
      · subst hp
        rw [findAt_insertAt_self] at hf
        simp at hf
        subst hf
        exact ⟨rfl, hlvl.symm⟩
      · rw [findAt_insertAt_ne _ _ _ _ hp] at hf
        exact hl lvl p c hf
    · rw [if_neg hlvl] at hf
      exact hl lvl p c hf
  · intro p c hf
    simp only [addBlockInternal] at hf ⊢
    by_cases hp : b.position = p
    · subst hp
      rw [findAt_insertAt_self] at hf
      simp at hf
      subst hf
      rw [if_pos rfl, findAt_insertAt_self]
    · rw [findAt_insertAt_ne _ _ _ _ hp] at hf
      have hold := hfwd p c hf
      by_cases hy : c.position.y = b.position.y
      · rw [if_pos hy, findAt_insertAt_ne _ _ _ _ hp]
        exact hold
      · rw [if_neg hy]
        exact hold
  · intro lvl p c hf
    simp only [addBlockInternal] at hf ⊢
    by_cases hlvl : lvl = b.position.y
    · rw [if_pos hlvl] at hf
      by_cases hp : b.position = p
      · subst hp
        rw [findAt_insertAt_self] at hf
        simp at hf
        subst hf
        rw [findAt_insertAt_self]
      · rw [findAt_insertAt_ne _ _ _ _ hp] at hf
        rw [findAt_insertAt_ne _ _ _ _ hp]
        exact hbwd lvl p c hf
    · rw [if_neg hlvl] at hf
      have hp : b.position ≠ p := by
        intro he
        obtain ⟨hcp, hpy⟩ := hl lvl p c hf
        exact hlvl (((congrArg BlockPosition.y he).trans hpy).symm)
      rw [findAt_insertAt_ne _ _ _ _ hp]
      exact hbwd lvl p c hf

theorem diagramInv_removeBlockInternal (d : Diagram) (p0 : BlockPosition)
    (h : diagramInv d) : diagramInv (removeBlockInternal d p0) := by
  obtain ⟨hs, hl, hfwd, hbwd⟩ := h
  refine ⟨?_, ?_, ?_, ?_⟩
  · intro p c hf
    simp only [removeBlockInternal] at hf
    by_cases hp : p0 = p
    · subst hp
      rw [findAt_eraseAt_self] at hf
      exact absurd hf (by simp)
    · rw [findAt_eraseAt_ne _ _ _ hp] at hf
      exact hs p c hf
  · intro lvl p c hf
    simp only [removeBlockInternal] at hf
    by_cases hlvl : lvl = p0.y
    · rw [if_pos hlvl] at hf
      by_cases hp : p0 = p
      · subst hp
        rw [findAt_eraseAt_self] at hf
        exact absurd hf (by simp)
      · rw [findAt_eraseAt_ne _ _ _ hp] at hf
        exact hl lvl p c hf
    · rw [if_neg hlvl] at hf
      exact hl lvl p c hf
  · intro p c hf
    simp only [removeBlockInternal] at hf ⊢
    by_cases hp : p0 = p
    · subst hp
      rw [findAt_eraseAt_self] at hf
      exact absurd hf (by simp)
    · rw [findAt_eraseAt_ne _ _ _ hp] at hf
      have hold := hfwd p c hf
      by_cases hy : c.position.y = p0.y
      · rw [if_pos hy, findAt_eraseAt_ne _ _ _ hp]
        exact hold
      · rw [if_neg hy]
        exact hold
  · intro lvl p c hf
    simp only [removeBlockInternal] at hf ⊢
    by_cases hlvl : lvl = p0.y
    · rw [if_pos hlvl] at hf
      by_cases hp : p0 = p
      · subst hp
        rw [findAt_eraseAt_self] at hf
        exact absurd hf (by simp)
      · rw [findAt_eraseAt_ne _ _ _ hp] at hf
        rw [findAt_eraseAt_ne _ _ _ hp]
        exact hbwd lvl p c hf
    · rw [if_neg hlvl] at hf
      have hp : p0 ≠ p := by
        intro he
        obtain ⟨hcp, hpy⟩ := hl lvl p c hf
        exact hlvl (hpy.symm.trans (congrArg BlockPosition.y he.symm))
      rw [findAt_eraseAt_ne _ _ _ hp]
      exact hbwd lvl p c hf

theorem diagramInv_applyEdit (d : Diagram) (e : Edit) (h : diagramInv d) :
    diagramInv (applyEdit d e) := by
  cases e with
  | ins b => exact diagramInv_addBlockInternal d b h
  | del p => exact diagramInv_removeBlockInternal d p h

theorem diagramInv_commit (d : Diagram) (t : Transaction) (h : diagramInv d) :
    diagramInv (commit d t) := by
  induction t generalizing d with
  | nil => exact h
  | cons e rest ih => exact ih _ (diagramInv_applyEdit d e h)

theorem diagramInv_commits (ts : List Transaction) : diagramInv (commits ts) := by
  suffices hgen : ∀ (l : List Transaction) (d : Diagram), diagramInv d →
      diagramInv (l.foldl commit d) by
    exact hgen ts emptyDiagram diagramInv_empty
  intro l
  induction l with
  | nil => exact fun d hd => hd
  | cons t rest ih => exact fun d hd => ih _ (diagramInv_commit d t hd)

/-- Claim C2: after any sequence of commits from an empty store, the primary
and level indices hold exactly the same entries: every primary entry (pos,
inst) appears in the level map of inst's y-coordinate under the same key, and
every entry of every level map appears in the primary index at the same key
with the same instance. -/
theorem c2_indices_consistent (ts : List Transaction) :
    (∀ p b, findAt (commits ts).block_map p = some b →
      findAt ((commits ts).block_list b.position.y) p = some b) ∧
    (∀ lvl p b, findAt ((commits ts).block_list lvl) p = some b →
      findAt (commits ts).block_map p = some b) :=
  (diagramInv_commits ts).2.2

/-- Modelled from the spec: the version tag written at the head of the save
stream. -/
def kDiagramVersion : Nat := 1

/-- One record of the persisted format: position coordinates, block type and
orientation of a single non-air block. -/
structure SaveRecord where
  x : Int
  y : Int
  z : Int
  blockType : Int
  orientation : BlockOrientation
deriving DecidableEq, Repr

/-- The record written for one stored instance. -/
def recordOf (b : BlockInstance) : SaveRecord :=
  ⟨b.position.x, b.position.y, b.position.z, b.blockType, b.orientation⟩

/-- The position encoded in a record. -/
def recPosition (r : SaveRecord) : BlockPosition :=
  ⟨r.x, r.y, r.z⟩

/-- The block instance deserialized from a record. -/
def instOfRecord (r : SaveRecord) : BlockInstance :=
  ⟨r.blockType, recPosition r, r.orientation⟩

/-- Modelled from the spec: the record sequence `Diagram::save` writes — every
non-air entry of the primary index, in index order (`src/diagram.h:76-80`). -/
def saveRecords : PosMap → List SaveRecord
  | [] => []
  | (_, b) :: rest =>
    if b.blockType = kBlockTypeAir then saveRecords rest
    else recordOf b :: saveRecords rest

/-- Modelled from the spec: `Diagram::save` writes the version tag followed by
the records of all non-air primary-index entries; the ephemeral overlay is
never consulted (`src/diagram.h:76-80`). -/
def save (d : Diagram) : Nat × List SaveRecord :=
  (kDiagramVersion, saveRecords d.block_map)

/-- Outcome reported by `load`: success, or a distinct recoverable format
error for an unrecognized version tag. -/
inductive LoadStatus where
  | ok
  | formatError
deriving DecidableEq, Repr

/-- Modelled from the spec: `Diagram::load` validates the version tag before
mutating; on an unrecognized version it reports a format error and leaves the
store as it was; otherwise it replaces the primary and level indices entirely
with the deserialized entries, leaving the ephemeral overlay untouched
(`src/diagram.h:82-85`). -/
def load (d : Diagram) (version : Nat) (recs : List SaveRecord) :
    LoadStatus × Diagram :=
  if version = kDiagramVersion then
    (LoadStatus.ok,
      recs.foldl (fun acc r => addBlockInternal acc (instOfRecord r))
        { d with block_map := [], block_list := fun _ => [] })
  else (LoadStatus.formatError, d)

/-- First record whose encoded position is `p`. -/
def findRec : List SaveRecord → BlockPosition → Option SaveRecord
  | [], _ => none
  | r :: rest, p => if recPosition r = p then some r else findRec rest p

theorem findRec_eq_none_of_not_mem (recs : List SaveRecord) (p : BlockPosition)
    (h : p ∉ recs.map recPosition) : findRec recs p = none := by
  induction recs with
  | nil => rfl
  | cons r rest ih =>
    rw [List.map_cons, List.mem_cons] at h
    push_neg at h
    simp [findRec, Ne.symm h.1, ih h.2]

@[simp]
theorem instOfRecord_recordOf (b : BlockInstance) : instOfRecord (recordOf b) = b := by
  obtain ⟨t, ⟨px, py, pz⟩, o⟩ := b
  rfl

@[simp]
theorem recPosition_recordOf (b : BlockInstance) : recPosition (recordOf b) = b.position := by
  obtain ⟨t, ⟨px, py, pz⟩, o⟩ := b
  rfl

theorem load_fold_findAt (recs : List SaveRecord) (d0 : Diagram) (q : BlockPosition)
    (hnd : (recs.map recPosition).Nodup) :
    findAt ((recs.foldl (fun acc r => addBlockInternal acc (instOfRecord r)) d0).block_map) q =
      (match findRec recs q with
       | some r => some (instOfRecord r)
       | none => findAt d0.block_map q) := by
  induction recs generalizing d0 with
  | nil => simp [findRec]
  | cons r rest ih =>
    rw [List.map_cons, List.nodup_cons] at hnd
    rw [List.foldl_cons, ih _ hnd.2]
    by_cases hq : recPosition r = q
    · rw [findRec_eq_none_of_not_mem rest q (hq ▸ hnd.1)]
      have hpos : (instOfRecord r).position = q := hq
      simp only [findRec, if_pos hq, addBlockInternal, hpos, findAt_insertAt_self]
    · simp only [findRec, if_neg hq]
      cases findRec rest q with
      | some r' => rfl
      | none =>
        have hpos : (instOfRecord r).position ≠ q := hq
        simp only [addBlockInternal]
        rw [findAt_insertAt_ne _ _ _ _ hpos]

theorem findRec_saveRecords (m : PosMap)
    (hpos : ∀ kv ∈ m, kv.2.position = kv.1)
    (hair : ∀ kv ∈ m, kv.2.blockType ≠ kBlockTypeAir) (q : BlockPosition) :
    findRec (saveRecords m) q = Option.map recordOf (findAt m q) := by
  induction m with
  | nil => rfl
  | cons kv rest ih =>
    obtain ⟨p, b⟩ := kv
    have hb := hpos (p, b) (List.mem_cons_self _ _)
    have ha := hair (p, b) (List.mem_cons_self _ _)
    have ih' := ih (fun kv h => hpos kv (List.mem_cons_of_mem _ h))
      (fun kv h => hair kv (List.mem_cons_of_mem _ h))
    have hb' : b.position = p := hb
    simp only [saveRecords, if_neg ha]
    by_cases hq : p = q
    · subst hq
      simp [findRec, findAt, hb']
    · simp only [findRec, recPosition_recordOf, findAt_cons, if_neg hq, ih']
      rw [hb', if_neg hq]

theorem saveRecords_keys (m : PosMap)
    (hpos : ∀ kv ∈ m, kv.2.position = kv.1)
    (hair : ∀ kv ∈ m, kv.2.blockType ≠ kBlockTypeAir) :
    (saveRecords m).map recPosition = m.map Prod.fst := by
  induction m with
  | nil => rfl
  | cons kv rest ih =>
    obtain ⟨p, b⟩ := kv
    have hb := hpos (p, b) (List.mem_cons_self _ _)
    have ha := hair (p, b) (List.mem_cons_self _ _)
    have ih' := ih (fun kv h => hpos kv (List.mem_cons_of_mem _ h))
      (fun kv h => hair kv (List.mem_cons_of_mem _ h))
    have hb' : b.position = p := hb
    simp only [saveRecords, if_neg ha, List.map_cons, recPosition_recordOf, ih']
    rw [hb']

/-- Claim C4: saving a store and loading the stream into a fresh empty store
reproduces the primary index as a set of (position, type, orientation)
triples, independent of insertion order, and `save` never reads the ephemeral
overlay. -/
theorem c4_save_load_roundtrip (S : Diagram)
    (hpos : ∀ kv ∈ S.block_map, kv.2.position = kv.1)
    (hair : ∀ kv ∈ S.block_map, kv.2.blockType ≠ kBlockTypeAir)
    (hnd : (S.block_map.map Prod.fst).Nodup) :
    (load emptyDiagram (save S).1 (save S).2).1 = LoadStatus.ok ∧
    (∀ (p : BlockPosition) (t : Int) (o : BlockOrientation),
      findAt (load emptyDiagram (save S).1 (save S).2).2.block_map p = some ⟨t, p, o⟩ ↔
        findAt S.block_map p = some ⟨t, p, o⟩) ∧
    (∀ e : PosMap, save { S with ephemeral_blocks := e } = save S) := by
  have hnd' : ((saveRecords S.block_map).map recPosition).Nodup := by
    rw [saveRecords_keys S.block_map hpos hair]
    exact hnd
  have hload : ∀ q : BlockPosition,
      findAt (load emptyDiagram (save S).1 (save S).2).2.block_map q =
        findAt S.block_map q := by
    intro q
    have hrw : (load emptyDiagram (save S).1 (save S).2).2 =
        (saveRecords S.block_map).foldl (fun acc r => addBlockInternal acc (instOfRecord r))
          { emptyDiagram with block_map := [], block_list := fun _ => [] } := by
      show (load emptyDiagram kDiagramVersion (saveRecords S.block_map)).2 = _
      rw [load, if_pos rfl]
    rw [hrw, load_fold_findAt _ _ _ hnd', findRec_saveRecords S.block_map hpos hair]
    cases hf : findAt S.block_map q with
    | some b => simp
    | none => simp [findAt]
  refine ⟨?_, fun p t o => by rw [hload p], fun e => rfl⟩
  show (load emptyDiagram kDiagramVersion (saveRecords S.block_map)).1 = LoadStatus.ok
  rw [load, if_pos rfl]

theorem c4_save_load_roundtrip_witness :
    (load emptyDiagram
        (save (commit emptyDiagram
          [Edit.ins ⟨7, ⟨1, 2, 3⟩, "North"⟩, Edit.ins ⟨9, ⟨4, 5, 6⟩, "None"⟩])).1
        (save (commit emptyDiagram
          [Edit.ins ⟨7, ⟨1, 2, 3⟩, "North"⟩, Edit.ins ⟨9, ⟨4, 5, 6⟩, "None"⟩])).2).1 =
      LoadStatus.ok ∧
    (findAt (load emptyDiagram
        (save (commit emptyDiagram
          [Edit.ins ⟨7, ⟨1, 2, 3⟩, "North"⟩, Edit.ins ⟨9, ⟨4, 5, 6⟩, "None"⟩])).1
        (save (commit emptyDiagram
          [Edit.ins ⟨7, ⟨1, 2, 3⟩, "North"⟩, Edit.ins ⟨9, ⟨4, 5, 6⟩, "None"⟩])).2).2.block_map
        ⟨1, 2, 3⟩ = some ⟨7, ⟨1, 2, 3⟩, "North"⟩ ↔
      findAt (commit emptyDiagram
          [Edit.ins ⟨7, ⟨1, 2, 3⟩, "North"⟩, Edit.ins ⟨9, ⟨4, 5, 6⟩, "None"⟩]).block_map
        ⟨1, 2, 3⟩ = some ⟨7, ⟨1, 2, 3⟩, "North"⟩) :=
  ⟨(c4_save_load_roundtrip _ (by decide) (by decide) (by decide)).1,
   (c4_save_load_roundtrip _ (by decide) (by decide) (by decide)).2.1 ⟨1, 2, 3⟩ 7 "North"⟩

/-- Claim C5: a load whose version marker is unrecognized reports the distinct
recoverable format error and leaves the primary and level indices (the whole
store) exactly as they were. -/
theorem c5_load_bad_version (d : Diagram) (version : Nat) (recs : List SaveRecord)
    (h : version ≠ kDiagramVersion) :
    (load d version recs).1 = LoadStatus.formatError ∧
    LoadStatus.formatError ≠ LoadStatus.ok ∧
    (load d version recs).2 = d := by
  rw [load, if_neg h]
  exact ⟨rfl, by simp, rfl⟩

theorem c5_load_bad_version_witness :
    (load emptyDiagram 999 []).1 = LoadStatus.formatError ∧
    (load emptyDiagram 999 []).2 = emptyDiagram :=
  ⟨(c5_load_bad_version emptyDiagram 999 [] (by decide)).1,
   (c5_load_bad_version emptyDiagram 999 [] (by decide)).2.2⟩

/-- Modelled from the spec: the hard ceiling on flood-fill search depth
(`src/diagram.h:102-104`: the algorithm stops filling after a large number of
iterations). -/
def kMaxFillDepth : Nat := 2048

/-- Modelled from the spec: `Diagram::fillBlocksRecurse`
(`src/diagram.h:179-197`) — 4-connected search at fixed y, visiting a cell
only if it holds exactly the source type and is not in the shared visited set,
accumulating a replacement edit per visited cell; the depth counter enforces
the ceiling.  The state is (visited set, transaction so far). -/
def fillBlocksRecurse (d : Diagram) (source_type dest_type : Int)
    (dest_orientation : BlockOrientation) :
    Nat → BlockPosition → List BlockPosition × Transaction →
      List BlockPosition × Transaction
  | 0, _, st => st
  | Nat.succ depth, pos, st =>
    if pos ∈ st.1 then st
    else if (blockAt d pos).blockType ≠ source_type then st
    else
      let st1 := (pos :: st.1, Edit.ins ⟨dest_type, pos, dest_orientation⟩ :: st.2)
      let st2 := fillBlocksRecurse d source_type dest_type dest_orientation depth
        ⟨pos.x + 1, pos.y, pos.z⟩ st1
      let st3 := fillBlocksRecurse d source_type dest_type dest_orientation depth
        ⟨pos.x - 1, pos.y, pos.z⟩ st2
      let st4 := fillBlocksRecurse d source_type dest_type dest_orientation depth
        ⟨pos.x, pos.y, pos.z + 1⟩ st3
      fillBlocksRecurse d source_type dest_type dest_orientation depth
        ⟨pos.x, pos.y, pos.z - 1⟩ st4

/-- The transaction accumulated by a full flood-fill search from `start_pos`,
with the source type read at `start_pos` via `blockAt`. -/
def fillTransaction (d : Diagram) (start_pos : BlockPosition) (dest_type : Int)
    (dest_orientation : BlockOrientation) : Transaction :=
  (fillBlocksRecurse d (blockAt d start_pos).blockType dest_type dest_orientation
    kMaxFillDepth start_pos ([], [])).2

/-- Modelled from the spec: `Diagram::fillBlocks` commits the accumulated
transaction once, after the whole search (`src/diagram.h:98-106`). -/
def fillBlocks (d : Diagram) (start_pos : BlockPosition) (dest_type : Int)
    (dest_orientation : BlockOrientation) : Diagram :=
  commit d (fillTransaction d start_pos dest_type dest_orientation)

/-- Worst-case number of cells a depth-`n` search can add: one for the current
cell plus four subtrees. -/
def fillBound : Nat → Nat
  | 0 => 0
  | Nat.succ n => 1 + 4 * fillBound n

theorem fillRecurse_length (d : Diagram) (s t : Int) (o : BlockOrientation) :
    ∀ (depth : Nat) (pos : BlockPosition) (st : List BlockPosition × Transaction),
      (fillBlocksRecurse d s t o depth pos st).2.length ≤ st.2.length + fillBound depth := by
  intro depth
  induction depth with
  | zero =>
    intro pos st
    simp [fillBlocksRecurse, fillBound]
  | succ depth ih =>
    intro pos st
    by_cases hv : pos ∈ st.1
    · simp only [fillBlocksRecurse, if_pos hv]
      exact Nat.le_add_right _ _
    · by_cases ht : (blockAt d pos).blockType ≠ s
      · simp only [fillBlocksRecurse, if_neg hv, if_pos ht]
        exact Nat.le_add_right _ _
      · simp only [fillBlocksRecurse, if_neg hv, if_neg ht]
        set st1 : List BlockPosition × Transaction :=
          (pos :: st.1, Edit.ins ⟨t, pos, o⟩ :: st.2) with hst1
        set st2 := fillBlocksRecurse d s t o depth ⟨pos.x + 1, pos.y, pos.z⟩ st1 with hst2
        set st3 := fillBlocksRecurse d s t o depth ⟨pos.x - 1, pos.y, pos.z⟩ st2 with hst3
        set st4 := fillBlocksRecurse d s t o depth ⟨pos.x, pos.y, pos.z + 1⟩ st3 with hst4
        have h1 := ih ⟨pos.x + 1, pos.y, pos.z⟩ st1
        have h2 := ih ⟨pos.x - 1, pos.y, pos.z⟩ st2
        have h3 := ih ⟨pos.x, pos.y, pos.z + 1⟩ st3
        have h4 := ih ⟨pos.x, pos.y, pos.z - 1⟩ st4
        rw [← hst2] at h1
        rw [← hst3] at h2
        rw [← hst4] at h3
        have hlen1 : st1.2.length = st.2.length + 1 := by rw [hst1]; rfl
        simp only [fillBound]
        omega

/-- Well-formedness of the search state: the visited set has no duplicates,
every accumulated target was visited, and no target repeats. -/
def goodState (st : List BlockPosition × Transaction) : Prop :=
  st.1.Nodup ∧ (∀ p ∈ st.2.map targetOf, p ∈ st.1) ∧ (st.2.map targetOf).Nodup

theorem fillRecurse_good (d : Diagram) (s t : Int) (o : BlockOrientation) :
    ∀ (depth : Nat) (pos : BlockPosition) (st : List BlockPosition × Transaction),
      goodState st → goodState (fillBlocksRecurse d s t o depth pos st) := by
  intro depth
  induction depth with
  | zero =>
    intro pos st hst
    simpa [fillBlocksRecurse] using hst
  | succ depth ih =>
    intro pos st hst
    by_cases hv : pos ∈ st.1
    · simpa only [fillBlocksRecurse, if_pos hv] using hst
    · by_cases ht : (blockAt d pos).blockType ≠ s
      · simpa only [fillBlocksRecurse, if_neg hv, if_pos ht] using hst
      · simp only [fillBlocksRecurse, if_neg hv, if_neg ht]
        obtain ⟨hnd, hsub, htnd⟩ := hst
        have hst1 : goodState (pos :: st.1, Edit.ins ⟨t, pos, o⟩ :: st.2) := by
          refine ⟨List.nodup_cons.mpr ⟨hv, hnd⟩, ?_, ?_⟩
          · intro p hp
            rw [List.map_cons] at hp
            rcases List.mem_cons.mp hp with h | h
            · rw [h]
              exact List.mem_cons_self _ _
            · exact List.mem_cons_of_mem _ (hsub p h)
          · rw [List.map_cons]
            refine List.nodup_cons.mpr ⟨fun hmem => ?_, htnd⟩
            exact hv (hsub _ hmem)
        exact ih _ _ (ih _ _ (ih _ _ (ih _ _ hst1)))

/-- Claim C6: `fillBlocks` terminates on every input — the model is a total
function driven by an explicit depth ceiling and a shared visited set — and
commits the transaction accumulated so far, whose size is bounded by
`fillBound kMaxFillDepth` and whose targets are never repeated (no position is
visited twice); this includes the case where the source type at the start is
the air sentinel. -/
theorem c6_fill_terminates_bounded (d : Diagram) (start_pos : BlockPosition)
    (dest_type : Int) (dest_orientation : BlockOrientation) :
    fillBlocks d start_pos dest_type dest_orientation =
      commit d (fillTransaction d start_pos dest_type dest_orientation) ∧
    (fillTransaction d start_pos dest_type dest_orientation).length ≤
      fillBound kMaxFillDepth ∧
    ((fillTransaction d start_pos dest_type dest_orientation).map targetOf).Nodup := by
  refine ⟨rfl, ?_, ?_⟩
  · show (fillBlocksRecurse d (blockAt d start_pos).blockType dest_type dest_orientation
        kMaxFillDepth start_pos ([], [])).2.length ≤ fillBound kMaxFillDepth
    have h := fillRecurse_length d (blockAt d start_pos).blockType dest_type
      dest_orientation kMaxFillDepth start_pos ([], [])
    have h0 : ((([] : List BlockPosition), ([] : Transaction)).2).length = 0 := rfl
    omega
  · have h := fillRecurse_good d (blockAt d start_pos).blockType dest_type
      dest_orientation kMaxFillDepth start_pos ([], [])
      ⟨List.nodup_nil, fun p hp => absurd hp (List.not_mem_nil p), List.nodup_nil⟩
    exact h.2.2

/-- Modelled from the spec: the sanity bound on the number of stepping
iterations of the line algorithm (`src/diagram.h:108-115`). -/
def kMaxLineSteps : Nat := 100

/-- One step of the line walk: move each coordinate one unit toward the
target (a symmetric incremental stepping rule; the spec leaves the exact
tie-break unspecified). -/
def stepToward (cur target : BlockPosition) : BlockPosition :=
  ⟨cur.x + (target.x - cur.x).sign,
   cur.y + (target.y - cur.y).sign,
   cur.z + (target.z - cur.z).sign⟩

/-- Modelled from the spec: the stepping loop of `Diagram::drawLine` — emit
the current cell, stop when the end point is reached, and stop early when the
sanity bound is hit, still emitting the end point so both endpoints are
always included (`src/diagram.h:108-115`). -/
def drawLineRecurse (line_type : Int) (orient : BlockOrientation) :
    Nat → BlockPosition → BlockPosition → Transaction
  | 0, _, target => [Edit.ins ⟨line_type, target, orient⟩]
  | Nat.succ fuel, cur, target =>
    if cur = target then [Edit.ins ⟨line_type, cur, orient⟩]
    else Edit.ins ⟨line_type, cur, orient⟩ ::
      drawLineRecurse line_type orient fuel (stepToward cur target) target

/-- The transaction a `drawLine` call synthesizes. -/
def lineTransaction (start_pos end_pos : BlockPosition) (line_type : Int)
    (orient : BlockOrientation) : Transaction :=
  drawLineRecurse line_type orient kMaxLineSteps start_pos end_pos

/-- Modelled from the spec: `Diagram::drawLine` commits the synthesized path
transaction (`src/diagram.h:108-115`). -/
def drawLine (d : Diagram) (start_pos end_pos : BlockPosition) (line_type : Int)
    (orient : BlockOrientation) : Diagram :=
  commit d (lineTransaction start_pos end_pos line_type orient)

theorem drawLineRecurse_end_mem (line_type : Int) (orient : BlockOrientation) :
    ∀ (fuel : Nat) (cur target : BlockPosition),
      Edit.ins ⟨line_type, target, orient⟩ ∈ drawLineRecurse line_type orient fuel cur target := by
  intro fuel
  induction fuel with
  | zero =>
    intro cur target
    exact List.mem_singleton.mpr rfl
  | succ fuel ih =>
    intro cur target
    by_cases h : cur = target
    · subst h
      simp only [drawLineRecurse, if_pos rfl]
      exact List.mem_singleton.mpr rfl
    · simp only [drawLineRecurse, if_neg h]
      exact List.mem_cons_of_mem _ (ih (stepToward cur target) target)

theorem drawLineRecurse_start_mem (line_type : Int) (orient : BlockOrientation)
    (fuel : Nat) (cur target : BlockPosition) :
    Edit.ins ⟨line_type, cur, orient⟩ ∈ drawLineRecurse line_type orient (fuel + 1) cur target := by
  by_cases h : cur = target
  · subst h
    simp only [drawLineRecurse, if_pos rfl]
    exact List.mem_singleton.mpr rfl
  · simp only [drawLineRecurse, if_neg h]
    exact List.mem_cons_self _ _

theorem drawLineRecurse_length (line_type : Int) (orient : BlockOrientation) :
    ∀ (fuel : Nat) (cur target : BlockPosition),
      (drawLineRecurse line_type orient fuel cur target).length ≤ fuel + 1 := by
  intro fuel
  induction fuel with
  | zero =>
    intro cur target
    simp [drawLineRecurse]
  | succ fuel ih =>
    intro cur target
    by_cases h : cur = target
    · simp only [drawLineRecurse, if_pos h, List.length_singleton]
      omega
    · simp only [drawLineRecurse, if_neg h, List.length_cons]
      have := ih (stepToward cur target) target
      omega

/-- Claim C7: `drawLine((0,0,0),(3,0,0),T,O)` commits a transaction setting
blocks of type T and orientation O at exactly (0,0,0), (1,0,0), (2,0,0),
(3,0,0) and at no other cell; in general both endpoints are always included
in the committed path, and the stepping loop is bounded by `kMaxLineSteps`,
so the synthesized transaction is finite on every input. -/
theorem c7_drawLine_path (d : Diagram) (start_pos end_pos : BlockPosition)
    (line_type : Int) (orient : BlockOrientation) :
    drawLine d start_pos end_pos line_type orient =
      commit d (lineTransaction start_pos end_pos line_type orient) ∧
    lineTransaction ⟨0, 0, 0⟩ ⟨3, 0, 0⟩ line_type orient =
      [Edit.ins ⟨line_type, ⟨0, 0, 0⟩, orient⟩,
       Edit.ins ⟨line_type, ⟨1, 0, 0⟩, orient⟩,
       Edit.ins ⟨line_type, ⟨2, 0, 0⟩, orient⟩,
       Edit.ins ⟨line_type, ⟨3, 0, 0⟩, orient⟩] ∧
    Edit.ins ⟨line_type, start_pos, orient⟩ ∈
      lineTransaction start_pos end_pos line_type orient ∧
    Edit.ins ⟨line_type, end_pos, orient⟩ ∈
      lineTransaction start_pos end_pos line_type orient ∧
    (lineTransaction start_pos end_pos line_type orient).length ≤ kMaxLineSteps + 1 := by
  refine ⟨rfl, ?_, ?_, ?_, ?_⟩
  · rfl
  · exact drawLineRecurse_start_mem line_type orient 99 start_pos end_pos
  · exact drawLineRecurse_end_mem line_type orient kMaxLineSteps start_pos end_pos
  · exact drawLineRecurse_length line_type orient kMaxLineSteps start_pos end_pos

theorem not_mem_keys_of_findAt_eq_none (m : PosMap) (p : BlockPosition)
    (h : findAt m p = none) : p ∉ m.map Prod.fst := by
  induction m with
  | nil => simp
  | cons kv rest ih =>
    obtain ⟨q, b⟩ := kv
    by_cases hq : q = p
    · simp [findAt, hq] at h
    · simp [findAt, hq] at h
      simp [Ne.symm hq, ih h]

/-- Modelled from the spec: the transaction `Diagram::copyLevel` synthesizes —
for every entry of the source level's snapshot, an equivalent block at the
same (x, z) with the destination level's y-coordinate
(`src/diagram.h:117-121`). -/
def copyLevelTransaction (d : Diagram) (source_level dest_level : Int) : Transaction :=
  (d.level source_level).map (fun kv =>
    Edit.ins ⟨kv.2.blockType, ⟨kv.2.position.x, dest_level, kv.2.position.z⟩,
      kv.2.orientation⟩)

/-- Modelled from the spec: `Diagram::copyLevel` commits the synthesized copy
transaction; it adds to the destination level without clearing it
(`src/diagram.h:117-121`). -/
def copyLevel (d : Diagram) (source_level dest_level : Int) : Diagram :=
  commit d (copyLevelTransaction d source_level dest_level)

theorem copyLevelTransaction_targets (d : Diagram) (source_level dest_level : Int)
    (hpos : ∀ kv ∈ d.level source_level, kv.2.position = kv.1) :
    (copyLevelTransaction d source_level dest_level).map targetOf =
      (d.level source_level).map
        (fun kv => (⟨kv.1.x, dest_level, kv.1.z⟩ : BlockPosition)) := by
  rw [copyLevelTransaction, List.map_map]
  apply List.map_congr_left
  intro kv hkv
  have hp := hpos kv hkv
  show (⟨kv.2.position.x, dest_level, kv.2.position.z⟩ : BlockPosition) = _
  rw [hp]

/-- Claim C8: `copyLevel` inserts, for every entry of the source level, an
equivalent block at the same (x, z) with y = destination level, and leaves
every destination-level cell whose (x, z) is not occupied on the source level
unchanged — a pre-existing unrelated block at such a cell is still present
afterwards. -/
theorem c8_copyLevel_additive (d : Diagram) (source_level dest_level : Int)
    (hpos : ∀ kv ∈ d.level source_level, kv.2.position = kv.1)
    (hy : ∀ kv ∈ d.level source_level, kv.1.y = source_level)
    (hnd : ((d.level source_level).map Prod.fst).Nodup) :
    (∀ p b, findAt (d.level source_level) p = some b →
      findAt (copyLevel d source_level dest_level).block_map ⟨p.x, dest_level, p.z⟩ =
        some ⟨b.blockType, ⟨p.x, dest_level, p.z⟩, b.orientation⟩) ∧
    (∀ q : BlockPosition, q.y = dest_level →
      findAt (d.level source_level) ⟨q.x, source_level, q.z⟩ = none →
      blockAt (copyLevel d source_level dest_level) q = blockAt d q) := by
  have htargets := copyLevelTransaction_targets d source_level dest_level hpos
  have hndt : ((copyLevelTransaction d source_level dest_level).map targetOf).Nodup := by
    have hcomp : (fun kv : BlockPosition × BlockInstance =>
        (⟨kv.1.x, dest_level, kv.1.z⟩ : BlockPosition)) =
        ((fun k : BlockPosition => (⟨k.x, dest_level, k.z⟩ : BlockPosition)) ∘ Prod.fst) := rfl
    rw [htargets, hcomp, ← List.map_map]
    apply List.Nodup.map_on ?_ hnd
    intro k1 h1 k2 h2 heq
    obtain ⟨kv1, hkv1, hk1⟩ := List.mem_map.mp h1
    obtain ⟨kv2, hkv2, hk2⟩ := List.mem_map.mp h2
    have hy1 := hy kv1 hkv1
    have hy2 := hy kv2 hkv2
    rw [hk1] at hy1
    rw [hk2] at hy2
    obtain ⟨x1, y1, z1⟩ := k1
    obtain ⟨x2, y2, z2⟩ := k2
    have heq' : (⟨x1, dest_level, z1⟩ : BlockPosition) = ⟨x2, dest_level, z2⟩ := heq
    injection heq' with hx hd hz
    have hy1' : y1 = source_level := hy1
    have hy2' : y2 = source_level := hy2
    rw [hx, hz, hy1', hy2']
  refine ⟨fun p b hf => ?_, fun q hqy hqn => ?_⟩
  · have hmem := mem_of_findAt _ _ _ hf
    have hp : b.position = p := hpos (p, b) hmem
    have hedit : Edit.ins ⟨b.blockType, ⟨p.x, dest_level, p.z⟩, b.orientation⟩ ∈
        copyLevelTransaction d source_level dest_level := by
      rw [copyLevelTransaction, List.mem_map]
      refine ⟨(p, b), hmem, ?_⟩
      show Edit.ins ⟨b.blockType, ⟨b.position.x, dest_level, b.position.z⟩, b.orientation⟩ = _
      rw [hp]
    exact commit_findAt_ins d _ _ hndt hedit
  · have hq : q ∉ (copyLevelTransaction d source_level dest_level).map targetOf := by
      rw [htargets, List.mem_map]
      rintro ⟨⟨k, bi⟩, hkv, hkq⟩
      obtain ⟨kx, ky, kz⟩ := k
      have hky : ky = source_level := hy _ hkv
      subst hky
      have hkq' : (⟨kx, dest_level, kz⟩ : BlockPosition) = q := hkq
      subst hkq'
      exact (not_mem_keys_of_findAt_eq_none _ _ hqn)
        (List.mem_map_of_mem Prod.fst hkv)
    have hbm : findAt (copyLevel d source_level dest_level).block_map q =
        findAt d.block_map q := commit_findAt_not_target d _ q hq
    rw [blockAt, blockAt, hbm]

theorem c8_copyLevel_additive_witness :
    blockAt (copyLevel (commit emptyDiagram
        [Edit.ins ⟨7, ⟨0, 0, 0⟩, "North"⟩, Edit.ins ⟨9, ⟨5, 1, 5⟩, "None"⟩]) 0 1) ⟨5, 1, 5⟩ =
      blockAt (commit emptyDiagram
        [Edit.ins ⟨7, ⟨0, 0, 0⟩, "North"⟩, Edit.ins ⟨9, ⟨5, 1, 5⟩, "None"⟩]) ⟨5, 1, 5⟩ ∧
    findAt (copyLevel (commit emptyDiagram
        [Edit.ins ⟨7, ⟨0, 0, 0⟩, "North"⟩, Edit.ins ⟨9, ⟨5, 1, 5⟩, "None"⟩]) 0 1).block_map
        ⟨0, 1, 0⟩ = some ⟨7, ⟨0, 1, 0⟩, "North"⟩ :=
  ⟨(c8_copyLevel_additive (commit emptyDiagram
        [Edit.ins ⟨7, ⟨0, 0, 0⟩, "North"⟩, Edit.ins ⟨9, ⟨5, 1, 5⟩, "None"⟩]) 0 1
      (by decide) (by decide) (by decide)).2 ⟨5, 1, 5⟩ rfl (by decide),
   (c8_copyLevel_additive (commit emptyDiagram
        [Edit.ins ⟨7, ⟨0, 0, 0⟩, "North"⟩, Edit.ins ⟨9, ⟨5, 1, 5⟩, "None"⟩]) 0 1
      (by decide) (by decide) (by decide)).1 ⟨0, 0, 0⟩ ⟨7, ⟨0, 0, 0⟩, "North"⟩ (by decide)⟩

/-- Static catalog properties of a block type — the fields consulted by
`BlockPrototype::defaultOrientation` and `BlockPrototype::nameOfType`: the
display name and the list of valid orientations.  A default-constructed
`BlockProperties` has an empty name and no orientations. -/
structure BlockProperties where
  name : String
  validOrientations : List BlockOrientation
deriving DecidableEq, Repr

/-- The default-constructed `BlockProperties()`. -/
def defaultBlockProperties : BlockProperties :=
  ⟨"", []⟩

/-- A `BlockPrototype` as far as `defaultOrientation` is concerned: its type
identifier `type_` and the catalog properties `properties_`
(`src/block_prototype.cc:121-128`). -/
structure BlockPrototype where
  blockType : Int
  properties : BlockProperties
deriving DecidableEq, Repr

/-- Translated from `BlockPrototype::defaultOrientation`
(`src/block_prototype.cc:203-209`): the first entry of `validOrientations`,
or the interned no-orientation sentinel when that list is empty. -/
def defaultOrientation (bp : BlockPrototype) : BlockOrientation :=
  match bp.properties.validOrientations with
  | [] => BlockOrientation.noOrientation
  | o :: _ => o

/-- Translated from `BlockPrototype::orientations`
(`src/block_prototype.cc:211-217`): the valid orientations, with the
no-orientation sentinel appended when the list is empty. -/
def orientations (bp : BlockPrototype) : List BlockOrientation :=
  let os := bp.properties.validOrientations
  if os.isEmpty then os ++ [BlockOrientation.noOrientation] else os

/-- Claim C9: `defaultOrientation` returns the first entry of the type's
`validOrientations` when non-empty, the interned no-orientation sentinel when
empty; it never fails, and its result is always one of the type's
orientations. -/
theorem c9_defaultOrientation_first (bp : BlockPrototype) :
    (∀ (o : BlockOrientation) (os : List BlockOrientation),
      bp.properties.validOrientations = o :: os → defaultOrientation bp = o) ∧
    (bp.properties.validOrientations = [] →
      defaultOrientation bp = BlockOrientation.noOrientation) ∧
    defaultOrientation bp ∈ orientations bp := by
  refine ⟨fun o os h => ?_, fun h => ?_, ?_⟩
  · rw [defaultOrientation, h]
  · rw [defaultOrientation, h]
  · rw [orientations]
    cases hos : bp.properties.validOrientations with
    | nil => simp [defaultOrientation, hos]
    | cons o os => simp [defaultOrientation, hos]

theorem c9_defaultOrientation_first_witness :
    defaultOrientation ⟨1, ⟨"Wool", ["North", "South"]⟩⟩ = "North" ∧
    defaultOrientation ⟨2, ⟨"Stone", []⟩⟩ = BlockOrientation.noOrientation :=
  ⟨(c9_defaultOrientation_first ⟨1, ⟨"Wool", ["North", "South"]⟩⟩).1 "North" ["South"] rfl,
   (c9_defaultOrientation_first ⟨2, ⟨"Stone", []⟩⟩).2.1 rfl⟩

/-- The catalog mapping `BlockPrototype::s_type_mapping`
(`src/block_prototype.cc:42`), a nullable pointer to a
`QMap<blocktype_t, BlockProperties>`; `none` models the NULL pointer before
`setupBlockProperties` has populated it. -/
abbrev TypeMapping := List (Int × BlockProperties)

/-- `QMap::contains`. -/
def qmapContains (m : TypeMapping) (t : Int) : Bool :=
  match m with
  | [] => false
  | (k, _) :: rest => if k = t then true else qmapContains rest t

/-- `QMap::value`: the stored value, or a default-constructed
`BlockProperties` when the key is absent. -/
def qmapValue (m : TypeMapping) (t : Int) : BlockProperties :=
  match m with
  | [] => defaultBlockProperties
  | (k, v) :: rest => if k = t then v else qmapValue rest t

/-- Translated from `BlockPrototype::nameOfType`
(`src/block_prototype.cc:100-107`): the catalog name when the mapping exists
and contains the type, otherwise a null (empty) string. -/
def nameOfType (s_type_mapping : Option TypeMapping) (t : Int) : String :=
  match s_type_mapping with
  | some m => if qmapContains m t then (qmapValue m t).name else ""
  | none => ""

/-- Claim C10: `nameOfType` is total: it returns the catalog's name for the
type when the mapping has been set up and contains it, and the empty string
when the mapping is not set up or the type is absent, never failing. -/
theorem c10_nameOfType_total (s_type_mapping : Option TypeMapping) (t : Int) :
    (∀ m, s_type_mapping = some m → qmapContains m t = true →
      nameOfType s_type_mapping t = (qmapValue m t).name) ∧
    (s_type_mapping = none → nameOfType s_type_mapping t = "") ∧
    (∀ m, s_type_mapping = some m → qmapContains m t = false →
      nameOfType s_type_mapping t = "") := by
  refine ⟨fun m hm hc => ?_, fun hm => ?_, fun m hm hc => ?_⟩
  · subst hm
    simp [nameOfType, hc]
  · subst hm
    rfl
  · subst hm
    simp [nameOfType, hc]

theorem c10_nameOfType_total_witness :
    nameOfType (some [(3, ⟨"Dirt", []⟩)]) 3 = "Dirt" ∧
    nameOfType none 3 = "" ∧
    nameOfType (some [(3, ⟨"Dirt", []⟩)]) 4 = "" := by
  refine ⟨?_, ?_, ?_⟩
  · rw [(c10_nameOfType_total (some [(3, ⟨"Dirt", []⟩)]) 3).1 [(3, ⟨"Dirt", []⟩)] rfl
      (by decide)]
    rfl
  · exact (c10_nameOfType_total none 3).2.1 rfl
  · exact (c10_nameOfType_total (some [(3, ⟨"Dirt", []⟩)]) 4).2.2 [(3, ⟨"Dirt", []⟩)] rfl
      (by decide)

end MCModeler
